import Mathlib

/-!
Verification development for the EPS extraction engine of
`financial_filing_parser.py`.

The Python module defines `extract_numeric_value` twice; the second
definition (the decimal-first one) is the one bound at call time, so it is
the one embedded here.  Text is modelled as `List Char`; Python regular
expression searches are embedded as hand-rolled leftmost scanners that are
noted next to the regex they implement; machine floats are idealized as
exact rationals.
-/

/-- Convert a string literal to the `List Char` representation used throughout. -/
def cl (s : String) : List Char := s.toList

/-- Whitespace stripped by Python's `str.strip()` and matched by `\s`
(ASCII subset). -/
def isPySpace (c : Char) : Bool :=
  c = ' ' || c = '\t' || c = '\n' || c = '\r' || c = '\x0b' || c = '\x0c'

/-- Python `str.lower()` on the characters of the text. -/
def pyLower (l : List Char) : List Char := l.map Char.toLower

/-- Python `str.strip()`: remove leading and trailing whitespace. -/
def pyStrip (l : List Char) : List Char :=
  (((l.dropWhile isPySpace).reverse).dropWhile isPySpace).reverse

/-- Python substring test `w in t` (contiguous substring). -/
def containsSub (w : List Char) : List Char → Bool
  | [] => w.isEmpty
  | c :: cs => w.isPrefixOf (c :: cs) || containsSub w cs

/-- ASCII digit, as matched by `\d` on the inputs in scope. -/
def isDigit (c : Char) : Bool := c.isDigit

/-- Character class `[\d\.]` from the sign-handling regexes. -/
def isDigitDot (c : Char) : Bool := c.isDigit || c = '.'

/-- Word character as matched by `\w` / tested by `\b` (ASCII subset). -/
def isWordChar (c : Char) : Bool := c.isAlphanum || c = '_'

/-- Numeric value of a digit string, for Python's `int(...)`. -/
def digitsToNat (l : List Char) : Nat :=
  l.foldl (fun a c => a * 10 + (c.toNat - '0'.toNat)) 0

/-- Python text cleaning in `extract_numeric_value`:
`text.replace('$', '').replace(',', '').strip()`. -/
def pyClean (l : List Char) : List Char :=
  pyStrip ((l.filter (fun c => c != '$')).filter (fun c => c != ','))

/-- Leftmost match of `re.search(r'([\d]+\.[\d]+)', t)`: the first
digits-dot-digits token, with greedy digit runs on both sides. -/
def findDecimal : List Char → Option (List Char)
  | [] => none
  | c :: cs =>
    if isDigit c then
      let d1 := c :: cs.takeWhile isDigit
      match cs.dropWhile isDigit with
      | '.' :: r2 =>
        match r2.takeWhile isDigit with
        | [] => findDecimal cs
        | d2 => some (d1 ++ '.' :: d2)
      | _ => findDecimal cs
    else findDecimal cs

/-- Leftmost match group of `re.search(r'([\d\.]+)', t)`: the first maximal
run of digits and dots. -/
def findRun : List Char → Option (List Char)
  | [] => none
  | c :: cs => if isDigitDot c then some (c :: cs.takeWhile isDigitDot) else findRun cs

/-- Leftmost match group of `re.search(r'\(?([\d\.]+)', t)`: an optional
opening parenthesis, then the captured run of digits and dots. -/
def searchParenOptNum : List Char → Option (List Char)
  | [] => none
  | c :: cs =>
    if isDigitDot c then some (c :: cs.takeWhile isDigitDot)
    else if c = '(' then
      match cs with
      | d :: ds => if isDigitDot d then some (d :: ds.takeWhile isDigitDot) else searchParenOptNum cs
      | [] => none
    else searchParenOptNum cs

/-- Leftmost match group of `re.search(r'\(([\d\.]+)\)', t)`: a run of
digits and dots fully enclosed in parentheses. -/
def findParenNum : List Char → Option (List Char)
  | [] => none
  | c :: cs =>
    if c = '(' then
      match cs.takeWhile isDigitDot with
      | [] => findParenNum cs
      | run =>
        match cs.dropWhile isDigitDot with
        | ')' :: _ => some run
        | _ => findParenNum cs
    else findParenNum cs

/-- Test of `re.search(r'^\s*[\-−–]', t)`: the text begins (after
whitespace) with a minus-like character. -/
def startsMinus (t : List Char) : Bool :=
  match t.dropWhile isPySpace with
  | c :: _ => c = '-' || c = '−' || c = '–'
  | [] => false

/-- Test of `cleaned_text.startswith('(') and not cleaned_text.endswith(')')`. -/
def openNoClose (t : List Char) : Bool :=
  (match t.head? with | some c => c == '(' | none => false)
    && !(match t.getLast? with | some c => c == ')' | none => false)

/-- All matches of `re.findall(r'\b(\d+)\b', t)`: maximal digit runs whose
neighbours on both sides are word boundaries.  `leftOk` records whether the
character before the current position is a non-word character (or the start
of the text); `cur` is the reversed digit run currently being read. -/
def wordInts : Bool → List Char → List Char → List (List Char)
  | leftOk, cur, [] => if !cur.isEmpty && leftOk then [cur.reverse] else []
  | leftOk, cur, c :: cs =>
    if isDigit c then wordInts leftOk (c :: cur) cs
    else
      (if !cur.isEmpty && leftOk && !isWordChar c then [cur.reverse] else [])
        ++ wordInts (!isWordChar c) [] cs

/-- The integer tokens surviving the small-integer exclusion:
`[n for n in int_matches if len(n) > 2 or int(n) > 20]`. -/
def survivingInts (t : List Char) : List (List Char) :=
  (wordInts true [] t).filter (fun n => decide (2 < n.length) || decide (20 < digitsToNat n))

/-- The second (decimal-first) `extract_numeric_value` of
`financial_filing_parser.py`, the definition in effect at run time. -/
def extract_numeric_value (text : List Char) : Option (List Char) :=
  if text.isEmpty then none
  else
    let t := pyClean text
    match findDecimal t with
    | some m =>
      -- f"({m})" in t or f"( {m} )" in t
      if containsSub ('(' :: m ++ [')']) t || containsSub ('(' :: ' ' :: m ++ [' ', ')']) t then
        some ('-' :: m)
      else if startsMinus t then some ('-' :: m)
      else if openNoClose t then some ('-' :: m)
      else some m
    | none =>
      match (if openNoClose t then searchParenOptNum t else none) with
      | some r => some ('-' :: r)
      | none =>
        match (if t.contains '(' && t.contains ')' then findParenNum t else none) with
        | some r => some ('-' :: r)
        | none =>
          match (if startsMinus t then findRun t else none) with
          | some r => some ('-' :: r)
          | none =>
            if t = [')'] then none
            else
              let ints := wordInts true [] t
              match survivingInts t with
              | v :: _ => some v
              | [] =>
                match ints with
                | [] => none
                | i0 :: irest =>
                  let largest :=
                    irest.foldl (fun best n => if digitsToNat best < digitsToNat n then n else best) i0
                  if largest.length + 3 < t.length then some largest else none

/-- A value string that parses as a decimal number, optionally preceded by a
single minus sign: after removing at most one leading '-', the remainder is
nonempty, consists of digits and at most one decimal point, and contains at
least one digit.  This is the well-formedness notion of the specification's
"value strings always parse as decimals". -/
def isDecimalStr (s : List Char) : Bool :=
  let b := match s with | '-' :: r => r | r => r
  !b.isEmpty && b.all isDigitDot && decide ((b.filter (fun c => c = '.')).length ≤ 1)
    && b.any isDigit

/-! Claims C1-C3: the Numeric Normalizer. -/

/-- Claim C1 (falsified by the code): the spec asserts that every value
returned by `extract_numeric_value` parses as a decimal optionally preceded
by a single minus sign, and that malformed numeric text (such as a string
of dots) is never returned.  On the input `"(."` the split-parenthesis
branch's regex `\(?([\d\.]+)` captures the lone dot and the function
returns `"-."`, which is not a parseable decimal. -/
theorem extract_numeric_value_emits_malformed_on_split_paren_dot :
    extract_numeric_value (cl "(.") = some (cl "-.") ∧ isDecimalStr (cl "-.") = false := by
  decide

/-- Claim C2, counterexample: with no decimal token, no parenthesis and no
leading minus, and the two surviving integer tokens "100" and "200",
`extract_numeric_value` returns the first surviving token "100", not the
numerically largest "200". -/
theorem extract_numeric_value_not_largest_surviving_int :
    survivingInts (pyClean (cl "100 200")) = [cl "100", cl "200"] ∧
    digitsToNat (cl "100") < digitsToNat (cl "200") ∧
    extract_numeric_value (cl "100 200") = some (cl "100") ∧
    extract_numeric_value (cl "100 200") ≠ some (cl "200") := by
  refine ⟨by decide, by decide, by decide, by decide⟩

/-- Claim C2, amended: for every input whose cleaned text has no decimal
token, no opening parenthesis and no leading minus-like character, if at
least one bare-integer token survives the small-integer exclusion,
`extract_numeric_value` returns the FIRST surviving token in text order
(the numerically-largest rule applies only to the fallback when no token
survives). -/
theorem extract_numeric_value_first_surviving_int (l : List Char)
    (hdec : findDecimal (pyClean l) = none)
    (hpar : (pyClean l).contains '(' = false)
    (hmin : startsMinus (pyClean l) = false)
    (v : List Char) (vs : List (List Char))
    (hsur : survivingInts (pyClean l) = v :: vs) :
    extract_numeric_value l = some v := by
  have hlne : l.isEmpty = false := by
    cases l with
    | nil =>
      exfalso
      have h0 : survivingInts (pyClean []) = [] := by decide
      rw [h0] at hsur
      exact List.noConfusion hsur
    | cons c cs => rfl
  have hop : openNoClose (pyClean l) = false := by
    cases hpc : pyClean l with
    | nil => rfl
    | cons c cs =>
      rw [hpc] at hpar
      have hc : (c == '(') = false := by
        cases hcc : c == '(' with
        | true =>
          exfalso
          have hce : c = '(' := by simpa using hcc
          subst hce
          simp [List.contains_cons] at hpar
        | false => rfl
      simp [openNoClose, hc]
  have hnp : pyClean l ≠ [')'] := by
    intro he
    have h0 : survivingInts [')'] = [] := by decide
    rw [he, h0] at hsur
    exact List.noConfusion hsur
  unfold extract_numeric_value
  rw [hlne]
  simp only [Bool.false_eq_true, if_false, hdec, hop, hpar, Bool.false_and, if_false, hmin, hsur]
  rw [if_neg hnp]

/-- Witness for the amended C2 theorem at the concrete input "100 200". -/
theorem extract_numeric_value_first_surviving_int_witness :
    extract_numeric_value (cl "100 200") = some (cl "100") :=
  extract_numeric_value_first_surviving_int (cl "100 200") (by decide) (by decide) (by decide)
    (cl "100") [cl "200"] (by decide)

/-- Claim C3: the six concrete equations of the Numeric Normalizer. -/
theorem extract_numeric_value_concrete_equations :
    extract_numeric_value (cl "$(1,234.56)") = some (cl "-1234.56") ∧
    extract_numeric_value (cl "1.23") = some (cl "1.23") ∧
    extract_numeric_value (cl "(5") = some (cl "-5") ∧
    extract_numeric_value (cl ")") = none ∧
    extract_numeric_value (cl "") = none ∧
    extract_numeric_value (cl "12") = none := by
  refine ⟨by decide, by decide, by decide, by decide, by decide, by decide⟩

/-! Backtracking matchers for the label/variant regular expressions.
A matcher `m : List Char → Bool` decides whether the pattern matches some
prefix of its argument; `searchAt m` implements `re.search` by trying every
start position. -/

/-- Matcher that accepts anything (the end of a pattern). -/
def mTrue : List Char → Bool := fun _ => true

/-- Matcher for a literal word followed by continuation `k`. -/
def mLit (w : List Char) (k : List Char → Bool) (l : List Char) : Bool :=
  w.isPrefixOf l && k (l.drop w.length)

/-- Matcher for `\s*` followed by continuation `k`, with full backtracking. -/
def mStarSpace (k : List Char → Bool) : List Char → Bool
  | [] => k []
  | c :: cs => k (c :: cs) || (isPySpace c && mStarSpace k cs)

/-- Matcher for `\s+` followed by continuation `k`. -/
def mPlusSpace (k : List Char → Bool) : List Char → Bool
  | [] => false
  | c :: cs => isPySpace c && mStarSpace k cs

/-- Matcher for a character class star `[..]*` followed by `k`. -/
def mStarCls (p : Char → Bool) (k : List Char → Bool) : List Char → Bool
  | [] => k []
  | c :: cs => k (c :: cs) || (p c && mStarCls p k cs)

/-- Matcher for a character class plus `[..]+` followed by `k`. -/
def mPlusCls (p : Char → Bool) (k : List Char → Bool) : List Char → Bool
  | [] => false
  | c :: cs => p c && mStarCls p k cs

/-- Matcher for a literal alternation `(?:w1|w2|...)` followed by `k`. -/
def mAlt (ws : List (List Char)) (k : List Char → Bool) (l : List Char) : Bool :=
  ws.any (fun w => mLit w k l)

/-- Matcher for an optional literal alternation `(?:w1|w2|...)?` followed by `k`. -/
def mOpt (ws : List (List Char)) (k : List Char → Bool) (l : List Char) : Bool :=
  k l || mAlt ws k l

/-- Matcher for an optional sub-pattern `(?:...)?` followed by `k`. -/
def mOptP (m : (List Char → Bool) → List Char → Bool) (k : List Char → Bool)
    (l : List Char) : Bool :=
  k l || m k l

/-- Matcher for an alternation of sub-patterns followed by `k`. -/
def mAltP (ms : List ((List Char → Bool) → List Char → Bool)) (k : List Char → Bool)
    (l : List Char) : Bool :=
  ms.any (fun m => m k l)

/-- Implements `re.search`: try the matcher at every start position. -/
def searchAt (m : List Char → Bool) : List Char → Bool
  | [] => m []
  | c :: cs => m (c :: cs) || searchAt m cs

/-- Search for a whole word `\bw\b` (`w` made of word characters): an
occurrence of `w` with a non-word character (or text boundary) on each
side.  The `prevW` flag records whether the previous character is a word
character. -/
def searchWord (w : List Char) : Bool → List Char → Bool
  | _, [] => false
  | prevW, c :: cs =>
    (!prevW && w.isPrefixOf (c :: cs)
      && !(match (c :: cs).drop w.length with | d :: _ => isWordChar d | [] => false))
      || searchWord w (isWordChar c) cs

/-- Character class `[a-z\s]` from the "attributable to" sub-pattern. -/
def isAZSpace (c : Char) : Bool := ('a' ≤ c && c ≤ 'z') || isPySpace c

/-- Pattern `(?:basic|diluted)?\s*earnings\s*(?:\(loss\))?\s*per\s*(?:common|outstanding|ordinary)?\s*share`. -/
def patEPS1 : List Char → Bool :=
  mOpt [cl "basic", cl "diluted"] <| mStarSpace <| mLit (cl "earnings") <| mStarSpace <|
  mOpt [cl "(loss)"] <| mStarSpace <| mLit (cl "per") <| mStarSpace <|
  mOpt [cl "common", cl "outstanding", cl "ordinary"] <| mStarSpace <| mLit (cl "share") mTrue

/-- Pattern `(?:basic|diluted)?\s*loss\s*per\s*(?:common|outstanding|ordinary)?\s*share`. -/
def patEPS2 : List Char → Bool :=
  mOpt [cl "basic", cl "diluted"] <| mStarSpace <| mLit (cl "loss") <| mStarSpace <|
  mLit (cl "per") <| mStarSpace <|
  mOpt [cl "common", cl "outstanding", cl "ordinary"] <| mStarSpace <| mLit (cl "share") mTrue

/-- Pattern `earnings\s*\(loss\)\s*per\s*(?:common|outstanding|ordinary)?\s*share`. -/
def patEPS3 : List Char → Bool :=
  mLit (cl "earnings") <| mStarSpace <| mLit (cl "(loss)") <| mStarSpace <|
  mLit (cl "per") <| mStarSpace <|
  mOpt [cl "common", cl "outstanding", cl "ordinary"] <| mStarSpace <| mLit (cl "share") mTrue

/-- Pattern `net\s*(?:income|loss|earnings)\s*(?:attributable\s*to\s*[a-z\s]+)?\s*per\s*share`. -/
def patEPS4 : List Char → Bool :=
  mLit (cl "net") <| mStarSpace <| mAlt [cl "income", cl "loss", cl "earnings"] <| mStarSpace <|
  mOptP (fun k => mLit (cl "attributable") <| mStarSpace <| mLit (cl "to") <| mStarSpace <|
    mPlusCls isAZSpace k) <|
  mStarSpace <| mLit (cl "per") <| mStarSpace <| mLit (cl "share") mTrue

/-- Pattern `income\s*\(loss\)\s*per\s*share`. -/
def patEPS5 : List Char → Bool :=
  mLit (cl "income") <| mStarSpace <| mLit (cl "(loss)") <| mStarSpace <|
  mLit (cl "per") <| mStarSpace <| mLit (cl "share") mTrue

/-- Pattern `earnings\s*per\s*share`. -/
def patEPS7 : List Char → Bool :=
  mLit (cl "earnings") <| mStarSpace <| mLit (cl "per") <| mStarSpace <| mLit (cl "share") mTrue

/-- Pattern `net\s+income\s+available\s+to\s+common\s+stockholders\s+per\s+share`. -/
def patEPS8 : List Char → Bool :=
  mLit (cl "net") <| mPlusSpace <| mLit (cl "income") <| mPlusSpace <| mLit (cl "available") <|
  mPlusSpace <| mLit (cl "to") <| mPlusSpace <| mLit (cl "common") <| mPlusSpace <|
  mLit (cl "stockholders") <| mPlusSpace <| mLit (cl "per") <| mPlusSpace <| mLit (cl "share") mTrue

/-- Pattern `net\s+income\s+per\s+common\s+share`. -/
def patEPS9 : List Char → Bool :=
  mLit (cl "net") <| mPlusSpace <| mLit (cl "income") <| mPlusSpace <| mLit (cl "per") <|
  mPlusSpace <| mLit (cl "common") <| mPlusSpace <| mLit (cl "share") mTrue

/-- Pattern `net\s*(?:\(loss\)\s*income|income\s*\(loss\))\s*per\s*share`. -/
def patEPS10 : List Char → Bool :=
  mLit (cl "net") <| mStarSpace <|
  mAltP [fun k => mLit (cl "(loss)") <| mStarSpace <| mLit (cl "income") k,
         fun k => mLit (cl "income") <| mStarSpace <| mLit (cl "(loss)") k] <|
  mStarSpace <| mLit (cl "per") <| mStarSpace <| mLit (cl "share") mTrue

/-- The ordered pattern list of `check_eps_pattern` (the 6th entry is the
word search `\beps\b`). -/
def epsPatterns : List (List Char → Bool) :=
  [searchAt patEPS1, searchAt patEPS2, searchAt patEPS3, searchAt patEPS4, searchAt patEPS5,
   searchWord (cl "eps") false, searchAt patEPS7, searchAt patEPS8, searchAt patEPS9,
   searchAt patEPS10]

/-- Search for the exclusion sub-pattern `shares\s*outstanding`. -/
def searchSharesOut : List Char → Bool :=
  searchAt (mLit (cl "shares") <| mStarSpace <| mLit (cl "outstanding") mTrue)

/-- The exclusion search `re.search(r'weighted|average|shares\s*outstanding', text)`. -/
def exclSearch (t : List Char) : Bool :=
  containsSub (cl "weighted") t || containsSub (cl "average") t || searchSharesOut t

/-- The pattern loop of `check_eps_pattern`: on a pattern match, the
exclusion search triggers `continue`, otherwise the function returns True. -/
def epsLoop : List (List Char → Bool) → List Char → Bool
  | [], _ => false
  | p :: ps, t => if p t then (if exclSearch t then epsLoop ps t else true) else epsLoop ps t

/-- Embedding of `check_eps_pattern` of `financial_filing_parser.py`
(the ten-pattern version): the text is lowercased and stripped, then the
patterns are tried in order with the weighted/average/shares-outstanding
exclusion. -/
def check_eps_pattern (text : List Char) : Bool :=
  epsLoop epsPatterns (pyStrip (pyLower text))

/-- Search for the phrase `basic\s+(?:and|&)\s+diluted`. -/
def searchBasicAnd : List Char → Bool :=
  searchAt (mLit (cl "basic") <| mPlusSpace <| mAlt [cl "and", cl "&"] <| mPlusSpace <|
    mLit (cl "diluted") mTrue)

/-- Search for the phrase `diluted\s+(?:and|&)\s+basic`. -/
def searchDilutedAnd : List Char → Bool :=
  searchAt (mLit (cl "diluted") <| mPlusSpace <| mAlt [cl "and", cl "&"] <| mPlusSpace <|
    mLit (cl "basic") mTrue)

/-- Embedding of `is_basic_eps` of `financial_filing_parser.py`: whole-word
detection of "basic" and "diluted", with the combined-phrase special case
forcing both flags true. -/
def is_basic_eps (text : List Char) : Bool × Bool :=
  let t := pyLower text
  let hasBasic := searchWord (cl "basic") false t
  let hasDiluted := searchWord (cl "diluted") false t
  if searchBasicAnd t || searchDilutedAnd t then (true, true) else (hasBasic, hasDiluted)

/-- Embedding of `is_gaap_eps`: true unless the lowercased text matches
`non-gaap|non\s*gaap|adjusted`. -/
def is_gaap_eps (text : List Char) : Bool :=
  let t := pyLower text
  !(searchAt (mLit (cl "non-gaap") mTrue) t
    || searchAt (mLit (cl "non") <| mStarSpace <| mLit (cl "gaap") mTrue) t
    || containsSub (cl "adjusted") t)

/-! Helper lemmas: substring containment survives lowercasing and stripping,
and implies success of the corresponding searches. -/

theorem isPrefixOf_self_append (w x : List Char) : w.isPrefixOf (w ++ x) = true := by
  induction w with
  | nil => cases x <;> rfl
  | cons c cs ih => simp [List.isPrefixOf, ih]

theorem isPrefixOf_ex {w l : List Char} : w.isPrefixOf l = true ↔ ∃ t, l = w ++ t := by
  induction w generalizing l with
  | nil => simp [List.isPrefixOf]
  | cons c cs ih =>
    cases l with
    | nil => simp [List.isPrefixOf]
    | cons d ds =>
      simp only [List.isPrefixOf, Bool.and_eq_true, beq_iff_eq, ih, List.cons_append,
        List.cons.injEq]
      constructor
      · rintro ⟨rfl, t, rfl⟩
        exact ⟨t, rfl, rfl⟩
      · rintro ⟨t, rfl, rfl⟩
        exact ⟨rfl, t, rfl⟩

theorem containsSub_ex {w t : List Char} : containsSub w t = true ↔ ∃ a b, t = a ++ w ++ b := by
  induction t with
  | nil =>
    simp only [containsSub, List.isEmpty_iff]
    constructor
    · rintro rfl
      exact ⟨[], [], rfl⟩
    · rintro ⟨a, b, h⟩
      cases a with
      | cons x a' => exact absurd h (by simp)
      | nil =>
        cases w with
        | nil => rfl
        | cons y w' => exact absurd h (by simp)
  | cons c cs ih =>
    simp only [containsSub, Bool.or_eq_true, ih, isPrefixOf_ex]
    constructor
    · rintro (⟨b, hb⟩ | ⟨a, b, hab⟩)
      · exact ⟨[], b, by simpa using hb⟩
      · exact ⟨c :: a, b, by simp [hab]⟩
    · rintro ⟨a, b, h⟩
      cases a with
      | nil => exact Or.inl ⟨b, by simpa using h⟩
      | cons x a' =>
        right
        simp only [List.cons_append, List.cons.injEq] at h
        exact ⟨a', b, h.2⟩

theorem mLit_append {k : List Char → Bool} {x : List Char} (w : List Char) (h : k x = true) :
    mLit w k (w ++ x) = true := by
  simp [mLit, isPrefixOf_self_append, List.drop_left, h]

theorem mStarSpace_here {k : List Char → Bool} {l : List Char} (h : k l = true) :
    mStarSpace k l = true := by
  cases l with
  | nil => simpa [mStarSpace] using h
  | cons c cs => simp [mStarSpace, h]

theorem mStarSpace_space {k : List Char → Bool} {c : Char} {cs : List Char}
    (hc : isPySpace c = true) (h : mStarSpace k cs = true) :
    mStarSpace k (c :: cs) = true := by
  simp [mStarSpace, hc, h]

theorem mPlusSpace_cons {k : List Char → Bool} {c : Char} {cs : List Char}
    (hc : isPySpace c = true) (h : mStarSpace k cs = true) :
    mPlusSpace k (c :: cs) = true := by
  simp [mPlusSpace, hc, h]

theorem mAlt_of_mem {ws : List (List Char)} {k : List Char → Bool} {l : List Char}
    (w : List Char) (hw : w ∈ ws) (h : mLit w k l = true) : mAlt ws k l = true := by
  simp only [mAlt, List.any_eq_true]
  exact ⟨w, hw, h⟩

theorem searchAt_append {m : List Char → Bool} {l : List Char} (a : List Char)
    (h : m l = true) : searchAt m (a ++ l) = true := by
  induction a with
  | nil =>
    cases l with
    | nil => simpa [searchAt] using h
    | cons c cs => simp [searchAt, h]
  | cons x a' ih => simp [searchAt, ih]

theorem ex_dropWhile {p : Char → Bool} {t : List Char} (c : Char) (cs : List Char)
    (hc : p c = false) (h : ∃ a b, t = a ++ (c :: cs) ++ b) :
    ∃ a b, t.dropWhile p = a ++ (c :: cs) ++ b := by
  obtain ⟨a, b, rfl⟩ := h
  induction a with
  | nil =>
    refine ⟨[], b, ?_⟩
    simp [List.dropWhile_cons, hc]
  | cons x a' ih =>
    by_cases hx : p x = true
    · obtain ⟨a2, b2, hab⟩ := ih
      refine ⟨a2, b2, ?_⟩
      show List.dropWhile p (x :: (a' ++ (c :: cs) ++ b)) = a2 ++ (c :: cs) ++ b2
      rw [List.dropWhile_cons, if_pos hx]
      exact hab
    · refine ⟨x :: a', b, ?_⟩
      show List.dropWhile p (x :: (a' ++ (c :: cs) ++ b)) = (x :: a') ++ (c :: cs) ++ b
      rw [List.dropWhile_cons, if_neg hx]
      simp

theorem ex_reverse {w t : List Char} (h : ∃ a b, t = a ++ w ++ b) :
    ∃ a b, t.reverse = a ++ w.reverse ++ b := by
  obtain ⟨a, b, rfl⟩ := h
  exact ⟨b.reverse, a.reverse, by simp [List.reverse_append, List.append_assoc]⟩

theorem ex_pyStrip (c : Char) (cs : List Char) (c' : Char) (cs' : List Char)
    {w t : List Char} (hwc : w = c :: cs) (hwr : w.reverse = c' :: cs')
    (hc : isPySpace c = false) (hc' : isPySpace c' = false)
    (h : ∃ a b, t = a ++ w ++ b) :
    ∃ a b, pyStrip t = a ++ w ++ b := by
  subst hwc
  have h1 := ex_dropWhile c cs hc h
  have h2 := ex_reverse h1
  rw [hwr] at h2
  have h3 := ex_dropWhile c' cs' hc' h2
  have h4 := ex_reverse h3
  rw [← hwr, List.reverse_reverse] at h4
  exact h4

theorem ex_pyLower {w t : List Char} (hw : pyLower w = w) (h : ∃ a b, t = a ++ w ++ b) :
    ∃ a b, pyLower t = a ++ w ++ b := by
  obtain ⟨a, b, rfl⟩ := h
  refine ⟨pyLower a, pyLower b, ?_⟩
  simp only [pyLower] at hw ⊢
  simp [List.map_append, hw]

theorem containsSub_strip_lower (w : List Char) (c : Char) (cs : List Char)
    (c' : Char) (cs' : List Char) {t : List Char}
    (hw1 : pyLower w = w) (hwc : w = c :: cs) (hwr : w.reverse = c' :: cs')
    (hc : isPySpace c = false) (hc' : isPySpace c' = false)
    (h : containsSub w t = true) : containsSub w (pyStrip (pyLower t)) = true :=
  containsSub_ex.mpr (ex_pyStrip c cs c' cs' hwc hwr hc hc'
    (ex_pyLower hw1 (containsSub_ex.mp h)))

theorem searchSharesOut_of_ex {t : List Char}
    (h : ∃ a b, t = a ++ cl "shares outstanding" ++ b) : searchSharesOut t = true := by
  obtain ⟨a, b, rfl⟩ := h
  unfold searchSharesOut
  rw [List.append_assoc]
  apply searchAt_append
  have h1 : cl "shares outstanding" ++ b
      = cl "shares" ++ (' ' :: (cl "outstanding" ++ b)) := by
    have h2 : cl "shares outstanding" = cl "shares" ++ (' ' :: cl "outstanding") := by decide
    rw [h2, List.append_assoc]
    rfl
  rw [h1]
  apply mLit_append
  apply mStarSpace_space (by decide)
  apply mStarSpace_here
  apply mLit_append
  rfl

theorem epsLoop_of_excl {t : List Char} (h : exclSearch t = true) :
    ∀ ps : List (List Char → Bool), epsLoop ps t = false := by
  intro ps
  induction ps with
  | nil => rfl
  | cons p ps ih =>
    simp only [epsLoop, h, if_true, ite_self]
    exact ih

/-- Claim C4: `check_eps_pattern` returns false for every text containing
"weighted", "average", or "shares outstanding" (the exclusion is re-tested
after every pattern match, so a single occurrence suppresses all of them);
and the three concrete example classifications hold. -/
theorem check_eps_pattern_claims :
    (∀ t : List Char,
      (containsSub (cl "weighted") t || containsSub (cl "average") t
        || containsSub (cl "shares outstanding") t) = true →
      check_eps_pattern t = false)
    ∧ check_eps_pattern (cl "diluted earnings per share") = true
    ∧ check_eps_pattern (cl "weighted average shares outstanding") = false
    ∧ check_eps_pattern (cl "basic loss per common share") = true := by
  refine ⟨?_, by decide, by decide, by decide⟩
  intro t h
  simp only [Bool.or_eq_true] at h
  have hex : exclSearch (pyStrip (pyLower t)) = true := by
    rcases h with (h | h) | h
    · have hc := containsSub_strip_lower (cl "weighted") 'w' (cl "eighted") 'd' (cl "ethgiew")
        (by decide) (by decide) (by decide) (by decide) (by decide) h
      simp [exclSearch, hc]
    · have hc := containsSub_strip_lower (cl "average") 'a' (cl "verage") 'e' (cl "gareva")
        (by decide) (by decide) (by decide) (by decide) (by decide) h
      simp [exclSearch, hc]
    · have hc := containsSub_strip_lower (cl "shares outstanding") 's' (cl "hares outstanding")
        'g' (cl "nidnatstuo serahs")
        (by decide) (by decide) (by decide) (by decide) (by decide) h
      have hs := searchSharesOut_of_ex (containsSub_ex.mp hc)
      simp [exclSearch, hs]
  unfold check_eps_pattern
  exact epsLoop_of_excl hex epsPatterns

/-- Witness for the universal part of the C4 theorem, at "weighted eps". -/
theorem check_eps_pattern_claims_witness :
    check_eps_pattern (cl "weighted eps") = false :=
  check_eps_pattern_claims.1 (cl "weighted eps") (by decide)

theorem searchBasicAnd_of_and {t : List Char}
    (h : ∃ a b, t = a ++ cl "basic and diluted" ++ b) : searchBasicAnd t = true := by
  obtain ⟨a, b, rfl⟩ := h
  unfold searchBasicAnd
  rw [List.append_assoc]
  apply searchAt_append
  have h1 : cl "basic and diluted" ++ b
      = cl "basic" ++ (' ' :: (cl "and" ++ (' ' :: (cl "diluted" ++ b)))) := by
    have h2 : cl "basic and diluted"
        = cl "basic" ++ (' ' :: (cl "and" ++ (' ' :: cl "diluted"))) := by decide
    rw [h2]
    simp [List.cons_append, List.append_assoc]
  rw [h1]
  apply mLit_append
  apply mPlusSpace_cons (by decide)
  apply mStarSpace_here
  apply mAlt_of_mem (cl "and") (by decide)
  apply mLit_append
  apply mPlusSpace_cons (by decide)
  apply mStarSpace_here
  apply mLit_append
  rfl

theorem searchBasicAnd_of_amp {t : List Char}
    (h : ∃ a b, t = a ++ cl "basic & diluted" ++ b) : searchBasicAnd t = true := by
  obtain ⟨a, b, rfl⟩ := h
  unfold searchBasicAnd
  rw [List.append_assoc]
  apply searchAt_append
  have h1 : cl "basic & diluted" ++ b
      = cl "basic" ++ (' ' :: (cl "&" ++ (' ' :: (cl "diluted" ++ b)))) := by
    have h2 : cl "basic & diluted"
        = cl "basic" ++ (' ' :: (cl "&" ++ (' ' :: cl "diluted"))) := by decide
    rw [h2]
    simp [List.cons_append, List.append_assoc]
  rw [h1]
  apply mLit_append
  apply mPlusSpace_cons (by decide)
  apply mStarSpace_here
  apply mAlt_of_mem (cl "&") (by decide)
  apply mLit_append
  apply mPlusSpace_cons (by decide)
  apply mStarSpace_here
  apply mLit_append
  rfl

theorem searchDilutedAnd_of_and {t : List Char}
    (h : ∃ a b, t = a ++ cl "diluted and basic" ++ b) : searchDilutedAnd t = true := by
  obtain ⟨a, b, rfl⟩ := h
  unfold searchDilutedAnd
  rw [List.append_assoc]
  apply searchAt_append
  have h1 : cl "diluted and basic" ++ b
      = cl "diluted" ++ (' ' :: (cl "and" ++ (' ' :: (cl "basic" ++ b)))) := by
    have h2 : cl "diluted and basic"
        = cl "diluted" ++ (' ' :: (cl "and" ++ (' ' :: cl "basic"))) := by decide
    rw [h2]
    simp [List.cons_append, List.append_assoc]
  rw [h1]
  apply mLit_append
  apply mPlusSpace_cons (by decide)
  apply mStarSpace_here
  apply mAlt_of_mem (cl "and") (by decide)
  apply mLit_append
  apply mPlusSpace_cons (by decide)
  apply mStarSpace_here
  apply mLit_append
  rfl

theorem searchDilutedAnd_of_amp {t : List Char}
    (h : ∃ a b, t = a ++ cl "diluted & basic" ++ b) : searchDilutedAnd t = true := by
  obtain ⟨a, b, rfl⟩ := h
  unfold searchDilutedAnd
  rw [List.append_assoc]
  apply searchAt_append
  have h1 : cl "diluted & basic" ++ b
      = cl "diluted" ++ (' ' :: (cl "&" ++ (' ' :: (cl "basic" ++ b)))) := by
    have h2 : cl "diluted & basic"
        = cl "diluted" ++ (' ' :: (cl "&" ++ (' ' :: cl "basic"))) := by decide
    rw [h2]
    simp [List.cons_append, List.append_assoc]
  rw [h1]
  apply mLit_append
  apply mPlusSpace_cons (by decide)
  apply mStarSpace_here
  apply mAlt_of_mem (cl "&") (by decide)
  apply mLit_append
  apply mPlusSpace_cons (by decide)
  apply mStarSpace_here
  apply mLit_append
  rfl

/-- Claim C5: any text containing "basic and diluted", "diluted and basic",
"basic & diluted" or "diluted & basic" classifies as both basic and
diluted; and the two concrete example classifications hold. -/
theorem is_basic_eps_claims :
    (∀ t : List Char,
      (containsSub (cl "basic and diluted") t || containsSub (cl "diluted and basic") t
        || containsSub (cl "basic & diluted") t || containsSub (cl "diluted & basic") t) = true →
      is_basic_eps t = (true, true))
    ∧ is_basic_eps (cl "basic and diluted eps") = (true, true)
    ∧ is_basic_eps (cl "diluted eps") = (false, true) := by
  refine ⟨?_, by decide, by decide⟩
  intro t h
  simp only [Bool.or_eq_true] at h
  have hor : (searchBasicAnd (pyLower t) || searchDilutedAnd (pyLower t)) = true := by
    rcases h with ((h | h) | h) | h
    · have hc := ex_pyLower (by decide) (containsSub_ex.mp h)
      simp [searchBasicAnd_of_and hc]
    · have hc := ex_pyLower (by decide) (containsSub_ex.mp h)
      simp [searchDilutedAnd_of_and hc]
    · have hc := ex_pyLower (by decide) (containsSub_ex.mp h)
      simp [searchBasicAnd_of_amp hc]
    · have hc := ex_pyLower (by decide) (containsSub_ex.mp h)
      simp [searchDilutedAnd_of_amp hc]
  simp [is_basic_eps, hor]

/-- Witness for the universal part of the C5 theorem, at "basic & diluted eps". -/
theorem is_basic_eps_claims_witness :
    is_basic_eps (cl "basic & diluted eps") = (true, true) :=
  is_basic_eps_claims.1 (cl "basic & diluted eps") (by decide)

/-! Data model for the Row-Pair Stitcher, Candidate Selector, Document
Aggregator and Final Resolver.  A table row is its list of `<td>` cell
texts plus its full text rendering; the HTML parsing itself is an external
collaborator, so rows arrive already textified. -/

/-- A table row: the raw texts of its `td` cells and its full text. -/
structure Row where
  cells : List (List Char)
  text : List Char
deriving DecidableEq

/-- A numeric candidate: `{'value', 'basic', 'diluted', 'gaap'}`. -/
structure Cand where
  value : List Char
  basic : Bool
  diluted : Bool
  gaap : Bool
deriving DecidableEq

/-- An EPS occurrence, the dictionary built by `select_eps_value`. -/
structure Occ where
  table_idx : Nat
  row_text : List Char
  basic : Bool
  diluted : Bool
  gaap : Bool
  value : List Char
  all_values : List (List Char)
deriving DecidableEq

/-- Row text normalization `row.get_text().lower().strip().replace(':', '')`. -/
def rowNorm (t : List Char) : List Char :=
  (pyStrip (pyLower t)).filter (fun c => c != ':')

/-- Scan the cells of one row: `cell.get_text().strip()` through
`extract_numeric_value`, the successes becoming candidates carrying the
current classification. -/
def scanCells (cells : List (List Char)) (basic diluted gaap : Bool) : List Cand :=
  cells.filterMap (fun c =>
    (extract_numeric_value (pyStrip c)).map
      (fun v => { value := v, basic := basic, diluted := diluted, gaap := gaap }))

/-- The `while (not found_value and i + 1 < len(rows))` advancement loop of
`extract_eps_from_filing`: each iteration re-derives basic/diluted from the
next row unless both are already true, re-derives gaap unconditionally, and
appends the row's candidates to the accumulator. -/
def stitchLoop : List Row → Bool → Bool → Bool → Bool → List Cand → List Cand
  | [], _, _, _, _, acc => acc
  | r :: rs, found, basic, diluted, _gaap, acc =>
    if found then acc
    else
      let bd := if !(basic && diluted) then is_basic_eps (rowNorm r.text) else (basic, diluted)
      let g := is_gaap_eps (rowNorm r.text)
      let vs := scanCells r.cells bd.1 bd.2 g
      stitchLoop rs (found || !vs.isEmpty) bd.1 bd.2 g (acc ++ vs)

/-- Candidate gathering for one label row: classify the label row, scan its
cells, then run the advancement loop over the remaining rows of the table. -/
def gatherCandidates (labelText : List Char) (labelCells : List (List Char))
    (rest : List Row) : List Cand :=
  let bd := is_basic_eps labelText
  let g := is_gaap_eps labelText
  let vals0 := scanCells labelCells bd.1 bd.2 g
  stitchLoop rest (!vals0.isEmpty) bd.1 bd.2 g vals0

/-- Row advancement as described by the specification (§4.3 step 3, claim
C6), written from the spec's words: advance row by row while no candidate
has been found and rows remain; re-derive basic/diluted from the new row
only when the current classification is not already both-true; re-derive
gaap fresh from every advanced row; stop with the first row whose scan
yields at least one candidate, or with nothing when the table is
exhausted. -/
def stitchFromSpec : List Row → Bool → Bool → Bool → List Cand
  | [], _, _, _ => []
  | r :: rs, basic, diluted, _ =>
    let bd := if basic && diluted then (basic, diluted) else is_basic_eps (rowNorm r.text)
    let g := is_gaap_eps (rowNorm r.text)
    let vs := scanCells r.cells bd.1 bd.2 g
    if vs.isEmpty then stitchFromSpec rs bd.1 bd.2 g else vs

theorem stitchLoop_found (rs : List Row) (b d g : Bool) (acc : List Cand) :
    stitchLoop rs true b d g acc = acc := by
  cases rs <;> rfl

theorem stitchLoop_eq_spec (rest : List Row) :
    ∀ b d g : Bool, stitchLoop rest false b d g [] = stitchFromSpec rest b d g := by
  induction rest with
  | nil => intro b d g; rfl
  | cons r rs ih =>
    intro b d g
    show (let bd := if !(b && d) then is_basic_eps (rowNorm r.text) else (b, d)
          let g' := is_gaap_eps (rowNorm r.text)
          let vs := scanCells r.cells bd.1 bd.2 g'
          stitchLoop rs (false || !vs.isEmpty) bd.1 bd.2 g' ([] ++ vs))
        = stitchFromSpec (r :: rs) b d g
    have hbd : (if !(b && d) then is_basic_eps (rowNorm r.text) else (b, d))
        = (if b && d then (b, d) else is_basic_eps (rowNorm r.text)) := by
      cases b <;> cases d <;> rfl
    rw [hbd]
    simp only [stitchFromSpec, Bool.false_or, List.nil_append]
    set bd := if b && d then (b, d) else is_basic_eps (rowNorm r.text) with hbddef
    set g' := is_gaap_eps (rowNorm r.text)
    set vs := scanCells r.cells bd.1 bd.2 g'
    cases hvs : vs.isEmpty with
    | true =>
      have hnil : vs = [] := List.isEmpty_iff.mp hvs
      rw [hnil]
      simp only [Bool.not_true, if_true]
      exact ih bd.1 bd.2 g'
    | false =>
      simp only [Bool.not_false]
      rw [stitchLoop_found, if_neg (by simp)]

theorem scanCells_flags {cells : List (List Char)} {b d g : Bool} {c : Cand}
    (h : c ∈ scanCells cells b d g) : c.basic = b ∧ c.diluted = d ∧ c.gaap = g := by
  simp only [scanCells, List.mem_filterMap] at h
  obtain ⟨x, _, hx⟩ := h
  cases hex : extract_numeric_value (pyStrip x) with
  | none => rw [hex] at hx; exact absurd hx (by simp)
  | some v =>
    rw [hex] at hx
    simp only [Option.map_some'] at hx
    have := Option.some.inj hx
    rw [← this]
    exact ⟨rfl, rfl, rfl⟩

theorem stitchLoop_both_true {rs : List Row} :
    ∀ {found g : Bool} {acc : List Cand} {c : Cand},
      c ∈ stitchLoop rs found true true g acc →
      c ∈ acc ∨ (c.basic = true ∧ c.diluted = true) := by
  induction rs with
  | nil => intro found g acc c h; exact Or.inl h
  | cons r rs ih =>
    intro found g acc c h
    cases found with
    | true => exact Or.inl h
    | false =>
      simp only [stitchLoop, if_neg (by simp : ¬ (false = true)), Bool.and_self,
        Bool.not_true, Bool.false_or] at h
      rcases ih h with hmem | hflag
      · rcases List.mem_append.mp hmem with hacc | hvs
        · exact Or.inl hacc
        · exact Or.inr ⟨(scanCells_flags hvs).1, (scanCells_flags hvs).2.1⟩
      · exact Or.inr hflag

/-- Claim C6: when a label row yields no numeric candidate, the gathered
candidates are exactly those of the spec's row-advancement description
(advance while no candidate found and rows remain; re-derive basic/diluted
only when not already both-true; re-derive gaap fresh each row; stop at the
first row with a candidate); moreover a both-true classification is never
downgraded: every candidate produced under it keeps both flags true. -/
theorem stitcher_advancement_claims :
    (∀ (labelText : List Char) (labelCells : List (List Char)) (rest : List Row),
      scanCells labelCells (is_basic_eps labelText).1 (is_basic_eps labelText).2
          (is_gaap_eps labelText) = [] →
      gatherCandidates labelText labelCells rest
        = stitchFromSpec rest (is_basic_eps labelText).1 (is_basic_eps labelText).2
            (is_gaap_eps labelText))
    ∧ (∀ (rs : List Row) (found g : Bool) (acc : List Cand) (c : Cand),
        c ∈ stitchLoop rs found true true g acc →
        c ∈ acc ∨ (c.basic = true ∧ c.diluted = true)) := by
  constructor
  · intro lt lc rest h0
    show stitchLoop rest
        (!(scanCells lc (is_basic_eps lt).1 (is_basic_eps lt).2 (is_gaap_eps lt)).isEmpty)
        (is_basic_eps lt).1 (is_basic_eps lt).2 (is_gaap_eps lt)
        (scanCells lc (is_basic_eps lt).1 (is_basic_eps lt).2 (is_gaap_eps lt))
      = stitchFromSpec rest (is_basic_eps lt).1 (is_basic_eps lt).2 (is_gaap_eps lt)
    rw [h0]
    simp only [List.isEmpty_nil, Bool.not_true]
    exact stitchLoop_eq_spec rest _ _ _
  · intro rs found g acc c h
    exact stitchLoop_both_true h

/-- Witness for the C6 theorem: a label row "eps" with no cells stitched to
a following row with cell "0.5", and the both-true preservation at a
concrete candidate. -/
theorem stitcher_advancement_claims_witness :
    (gatherCandidates (cl "eps") [] [{ cells := [cl "0.5"], text := cl "x" }]
      = stitchFromSpec [{ cells := [cl "0.5"], text := cl "x" }]
          (is_basic_eps (cl "eps")).1 (is_basic_eps (cl "eps")).2 (is_gaap_eps (cl "eps")))
    ∧ (({ value := cl "0.5", basic := true, diluted := true, gaap := true } : Cand)
        ∈ ([] : List Cand)
      ∨ (({ value := cl "0.5", basic := true, diluted := true, gaap := true } : Cand).basic = true
        ∧ ({ value := cl "0.5", basic := true, diluted := true, gaap := true } : Cand).diluted
            = true)) :=
  ⟨stitcher_advancement_claims.1 (cl "eps") [] [{ cells := [cl "0.5"], text := cl "x" }]
      (by decide),
   stitcher_advancement_claims.2 [{ cells := [cl "0.5"], text := cl "x" }] false true []
      { value := cl "0.5", basic := true, diluted := true, gaap := true } (by decide)⟩

/-- Embedding of `select_eps_value`: default to the first entry, prefer the
first basic-flagged entry, else the first diluted-flagged entry; build the
occurrence with the row text truncated to 100 characters and all candidate
values retained. -/
def select_eps_value (row_values : List Cand) (row_text : List Char) (table_idx : Nat) :
    Option Occ :=
  match row_values with
  | [] => none
  | first :: _ =>
    let selected :=
      match row_values.filter (fun i : Cand => i.basic) with
      | b :: _ => b
      | [] =>
        match row_values.filter (fun i : Cand => i.diluted) with
        | d :: _ => d
        | [] => first
    some { table_idx := table_idx, row_text := row_text.take 100,
           basic := selected.basic, diluted := selected.diluted, gaap := selected.gaap,
           value := selected.value, all_values := row_values.map (fun i : Cand => i.value) }

/-- The selection priority as described by the specification (claim C7):
the first candidate flagged basic; if none, the first flagged diluted;
otherwise the first candidate in list order. -/
def chooseCandidate (row_values : List Cand) (first : Cand) : Cand :=
  match row_values.find? (fun i : Cand => i.basic) with
  | some c => c
  | none =>
    match row_values.find? (fun i : Cand => i.diluted) with
    | some c => c
    | none => first

theorem head_filter_eq_find? (p : Cand → Bool) (l : List Cand) :
    (l.filter p).head? = l.find? p := by
  induction l with
  | nil => rfl
  | cons a as ih =>
    cases hp : p a with
    | true => simp [List.filter_cons, List.find?_cons, hp]
    | false => simp [List.filter_cons, List.find?_cons, hp, ih]

theorem chooseCandidate_eq_filters (l : List Cand) (d : Cand) :
    (match l.filter (fun i : Cand => i.basic) with
     | b :: _ => b
     | [] =>
       match l.filter (fun i : Cand => i.diluted) with
       | d' :: _ => d'
       | [] => d)
    = chooseCandidate l d := by
  unfold chooseCandidate
  rw [← head_filter_eq_find? (fun i : Cand => i.basic),
    ← head_filter_eq_find? (fun i : Cand => i.diluted)]
  cases l.filter (fun i : Cand => i.basic) with
  | cons b bs => rfl
  | nil =>
    cases l.filter (fun i : Cand => i.diluted) with
    | cons d' ds => rfl
    | nil => rfl

/-- Claim C7: on a non-empty candidate list, `select_eps_value` returns the
occurrence whose value/basic/diluted/gaap come from the first basic-flagged
candidate, else the first diluted-flagged one, else the first candidate;
`all_values` lists every candidate's value in order, and `row_text` is the
input row text truncated to 100 characters. -/
theorem select_eps_value_priority (c : Cand) (rest : List Cand) (rt : List Char) (ti : Nat) :
    select_eps_value (c :: rest) rt ti
      = some { table_idx := ti, row_text := rt.take 100,
               basic := (chooseCandidate (c :: rest) c).basic,
               diluted := (chooseCandidate (c :: rest) c).diluted,
               gaap := (chooseCandidate (c :: rest) c).gaap,
               value := (chooseCandidate (c :: rest) c).value,
               all_values := (c :: rest).map (fun i : Cand => i.value) } := by
  rw [← chooseCandidate_eq_filters (c :: rest) c]
  rfl

/-- Membership of the chosen candidate: the selection priority always picks
an element of the candidate list (or the given first element). -/
theorem chooseCandidate_mem {l : List Cand} {d : Cand} (hd : d ∈ l) : chooseCandidate l d ∈ l := by
  unfold chooseCandidate
  cases hb : l.find? (fun i : Cand => i.basic) with
  | some b => exact List.mem_of_find?_eq_some hb
  | none =>
    cases hdil : l.find? (fun i : Cand => i.diluted) with
    | some b => exact List.mem_of_find?_eq_some hdil
    | none => exact hd

theorem select_eps_value_some {rv : List Cand} {rt : List Char} {ti : Nat} {o : Occ}
    (h : select_eps_value rv rt ti = some o) :
    o.all_values = rv.map (fun i : Cand => i.value) ∧ o.value ∈ o.all_values := by
  cases rv with
  | nil => exact absurd h (by simp [select_eps_value])
  | cons c rest =>
    rw [select_eps_value_priority] at h
    have ho := (Option.some.inj h).symm
    subst ho
    refine ⟨rfl, ?_⟩
    exact List.mem_map_of_mem (fun i : Cand => i.value)
      (chooseCandidate_mem (List.mem_cons_self c rest))

/-- Scan of one label row and the rows after it inside a table, as done by
the row loop of `extract_eps_from_filing`: on a label-pattern match, gather
candidates (stitching into following rows), and append the selected
occurrence when at least one candidate was found.  The outer iteration
cursor is unaffected by the stitcher's internal advancement. -/
def processRows (ti : Nat) : List Row → List Occ
  | [] => []
  | r :: rest =>
    (if check_eps_pattern (rowNorm r.text) then
       if !(gatherCandidates (rowNorm r.text) r.cells rest).isEmpty then
         match select_eps_value (gatherCandidates (rowNorm r.text) r.cells rest)
             (rowNorm r.text) ti with
         | some o => [o]
         | none => []
       else []
     else []) ++ processRows ti rest

/-- Embedding of `extract_eps_from_filing`: a document is its list of
tables, each table its list of rows; tables are scanned in order with
their enumeration index. -/
def extract_eps_from_filing (tables : List (List Row)) : List Occ :=
  (tables.enum).flatMap (fun p : Nat × List Row => processRows p.1 p.2)

theorem processRows_entry_inv {rv : List Cand} {rt : List Char} {ti : Nat} {o : Occ}
    (h : o ∈ (if !rv.isEmpty then
                match select_eps_value rv rt ti with
                | some o' => [o']
                | none => ([] : List Occ)
              else [])) :
    o.all_values ≠ [] ∧ o.value ∈ o.all_values := by
  by_cases he : rv.isEmpty = true
  · rw [he] at h
    simp at h
  · have he' : rv.isEmpty = false := Bool.eq_false_iff.mpr he
    rw [he'] at h
    simp only [Bool.not_false, if_true] at h
    cases hsel : select_eps_value rv rt ti with
    | none => rw [hsel] at h; simp at h
    | some o' =>
      rw [hsel] at h
      rw [List.mem_singleton] at h
      subst h
      obtain ⟨hall, hmem⟩ := select_eps_value_some hsel
      refine ⟨?_, hmem⟩
      rw [hall]
      cases rv with
      | nil => exact absurd rfl he
      | cons c rest => simp

theorem processRows_inv (ti : Nat) (rows : List Row) :
    ∀ o ∈ processRows ti rows, o.all_values ≠ [] ∧ o.value ∈ o.all_values := by
  induction rows with
  | nil => intro o ho; simp [processRows] at ho
  | cons r rest ih =>
    intro o ho
    unfold processRows at ho
    rcases List.mem_append.mp ho with h1 | h2
    · by_cases hck : check_eps_pattern (rowNorm r.text) = true
      · rw [if_pos hck] at h1
        exact processRows_entry_inv h1
      · rw [if_neg hck] at h1
        simp at h1
    · exact ih o h2

/-- Claim C10: every occurrence produced by `extract_eps_from_filing` has a
non-empty `all_values` list, and its `value` is one of the values in
`all_values` (the selected value is always one of the gathered candidate
values). -/
theorem extract_eps_values_invariant (tables : List (List Row)) (o : Occ)
    (h : o ∈ extract_eps_from_filing tables) :
    o.all_values ≠ [] ∧ o.value ∈ o.all_values := by
  simp only [extract_eps_from_filing, List.mem_flatMap] at h
  obtain ⟨p, _, hp⟩ := h
  exact processRows_inv p.1 p.2 o hp

/-- Witness for the C10 theorem on a one-table, one-row document whose row
text is "eps" and whose single cell is "1.23". -/
theorem extract_eps_values_invariant_witness :
    ({ table_idx := 0, row_text := cl "eps", basic := false, diluted := false, gaap := true,
       value := cl "1.23", all_values := [cl "1.23"] } : Occ).all_values ≠ []
    ∧ ({ table_idx := 0, row_text := cl "eps", basic := false, diluted := false, gaap := true,
         value := cl "1.23", all_values := [cl "1.23"] } : Occ).value
      ∈ ({ table_idx := 0, row_text := cl "eps", basic := false, diluted := false, gaap := true,
           value := cl "1.23", all_values := [cl "1.23"] } : Occ).all_values :=
  extract_eps_values_invariant [[{ cells := [cl "1.23"], text := cl "eps" }]]
    { table_idx := 0, row_text := cl "eps", basic := false, diluted := false, gaap := true,
      value := cl "1.23", all_values := [cl "1.23"] } (by decide)

/-! Claim C8: the Final Resolver's score.  Python's `float(...)` is
modelled exactly: the optional-sign fixed-point decimals in scope are kept
as an integer mantissa with a power-of-ten scale, so every computation on
them is exact integer arithmetic (binary-float rounding is idealized
away); the exponent/infinity/nan forms accepted by Python are never
produced by the normalizer and are rejected. -/

/-- An exactly represented parsed decimal: the value `num / 10 ^ exp`. -/
structure Dec where
  num : Int
  exp : Nat
deriving DecidableEq

/-- The rational value denoted by a parsed decimal. -/
def Dec.toRat (d : Dec) : Rat := (d.num : Rat) / (10 : Rat) ^ d.exp

/-- Exact addition of parsed decimals (float addition idealized). -/
def Dec.add (a b : Dec) : Dec :=
  let e := max a.exp b.exp
  { num := a.num * (10 : Int) ^ (e - a.exp) + b.num * (10 : Int) ^ (e - b.exp), exp := e }

/-- Parse a string as Python's `float(...)` does on optional-sign
fixed-point decimals (surrounding whitespace stripped); `none` models
`ValueError`. -/
def pyFloat (s : List Char) : Option Dec :=
  let t := pyStrip s
  let sr : Bool × List Char :=
    match t with
    | '-' :: r => (true, r)
    | '+' :: r => (false, r)
    | r => (false, r)
  let ip := sr.2.takeWhile isDigit
  let r1 := sr.2.dropWhile isDigit
  match r1 with
  | [] =>
    if ip.isEmpty then none
    else
      let n : Int := (digitsToNat ip : Int)
      some { num := if sr.1 then -n else n, exp := 0 }
  | '.' :: fr =>
    let fp := fr.takeWhile isDigit
    if !(fr.dropWhile isDigit).isEmpty then none
    else if ip.isEmpty && fp.isEmpty then none
    else
      let n : Int := ((digitsToNat ip * 10 ^ fp.length + digitsToNat fp : Nat) : Int)
      some { num := if sr.1 then -n else n, exp := fp.length }
  | _ => none

/-- Embedding of `get_priority`: the sequential accumulation of the score
of one occurrence.  The range test `-100 <= value_float <= 100` is the
exact integer comparison `-100 * 10^exp ≤ num ≤ 100 * 10^exp`, which
agrees with the rational bound (`dec_range_iff`). -/
def get_priority (entry : Occ) : Int :=
  let p : Int := 0
  let p := if entry.basic then p + 100 else p
  let p := if entry.gaap then p + 50 else p
  let rt := pyLower entry.row_text
  let p :=
    if containsSub (cl "basic") rt then p + 30
    else if containsSub (cl "diluted") rt then p + 20
    else p
  let p :=
    match pyFloat entry.value with
    | some v =>
      if ¬(-100 * (10 : Int) ^ v.exp ≤ v.num ∧ v.num ≤ 100 * (10 : Int) ^ v.exp) then p - 1000
      else p
    | none => p
  p

theorem dec_range_iff (v : Dec) :
    (-100 * (10 : Int) ^ v.exp ≤ v.num ∧ v.num ≤ 100 * (10 : Int) ^ v.exp)
      ↔ (-100 ≤ v.toRat ∧ v.toRat ≤ 100) := by
  have hP : (0 : Rat) < (10 : Rat) ^ v.exp := by positivity
  unfold Dec.toRat
  rw [le_div_iff₀ hP, div_le_iff₀ hP]
  constructor
  · rintro ⟨h1, h2⟩
    constructor
    · calc (-100 : Rat) * (10 : Rat) ^ v.exp
          = ((-100 * (10 : Int) ^ v.exp : Int) : Rat) := by push_cast; ring
        _ ≤ (v.num : Rat) := by exact_mod_cast h1
    · calc (v.num : Rat) ≤ ((100 * (10 : Int) ^ v.exp : Int) : Rat) := by exact_mod_cast h2
        _ = (100 : Rat) * (10 : Rat) ^ v.exp := by push_cast; ring
  · rintro ⟨h1, h2⟩
    constructor
    · have : ((-100 * (10 : Int) ^ v.exp : Int) : Rat) ≤ (v.num : Rat) := by
        calc ((-100 * (10 : Int) ^ v.exp : Int) : Rat)
            = (-100 : Rat) * (10 : Rat) ^ v.exp := by push_cast; ring
          _ ≤ (v.num : Rat) := h1
      exact_mod_cast this
    · have : (v.num : Rat) ≤ ((100 * (10 : Int) ^ v.exp : Int) : Rat) := by
        calc (v.num : Rat) ≤ (100 : Rat) * (10 : Rat) ^ v.exp := h2
          _ = ((100 * (10 : Int) ^ v.exp : Int) : Rat) := by push_cast; ring
      exact_mod_cast this

/-- Claim C8: the score equals the sum of four independent contributions:
+100 for the basic flag, +50 for the gaap flag, +30 for "basic" in the row
text else +20 for "diluted", and -1000 when the value parses as a number
outside the closed interval [-100, 100] (no penalty when it does not
parse). -/
theorem get_priority_is_sum (entry : Occ) :
    get_priority entry
      = (if entry.basic then (100 : Int) else 0)
        + (if entry.gaap then (50 : Int) else 0)
        + (if containsSub (cl "basic") (pyLower entry.row_text) then (30 : Int)
           else if containsSub (cl "diluted") (pyLower entry.row_text) then (20 : Int) else 0)
        + (match pyFloat entry.value with
           | some v => if v.toRat < -100 ∨ 100 < v.toRat then (-1000 : Int) else 0
           | none => 0) := by
  unfold get_priority
  cases hf : pyFloat entry.value with
  | none =>
    cases hb : entry.basic <;> cases hg : entry.gaap <;>
      cases hbt : containsSub (cl "basic") (pyLower entry.row_text) <;>
      cases hdt : containsSub (cl "diluted") (pyLower entry.row_text) <;>
      simp [hb, hg, hbt, hdt]
  | some v =>
    have hiff : (¬(-100 * (10 : Int) ^ v.exp ≤ v.num ∧ v.num ≤ 100 * (10 : Int) ^ v.exp))
        ↔ (v.toRat < -100 ∨ 100 < v.toRat) := by
      rw [dec_range_iff, not_and_or, not_le, not_le]
    simp only [hiff]
    by_cases hv : v.toRat < -100 ∨ 100 < v.toRat <;>
      cases hb : entry.basic <;> cases hg : entry.gaap <;>
        cases hbt : containsSub (cl "basic") (pyLower entry.row_text) <;>
        cases hdt : containsSub (cl "diluted") (pyLower entry.row_text) <;>
        simp [hb, hg, hbt, hdt, hv]

/-! Claim C9: the Final Resolver `select_final_eps`. -/

/-- Decimal places of a value string: `len(value.split('.')[-1])` when it
contains a '.', else 0. -/
def decimalPlaces (v : List Char) : Nat :=
  if v.contains '.' then (v.reverse.takeWhile (fun c => c != '.')).length else 0

/-- Sum of the values parsed as floats (exactly); `none` models the
`ValueError` raised on the first unparseable value. -/
def sumFloats (vs : List (List Char)) : Option Dec :=
  match vs.mapM pyFloat with
  | some qs => some (qs.foldl Dec.add { num := 0, exp := 0 })
  | none => none

/-- Format a parsed decimal with `dp` digits after the decimal point, as
Python's `f"{total:.{dp}f}"` does: scale to `dp` places, round half to
even, render the digits with a sign taken from the value. -/
def formatFixed (d : Dec) (dp : Nat) : List Char :=
  let a := d.num.natAbs * 10 ^ dp
  let b := 10 ^ d.exp
  let q := a / b
  let r := a % b
  let m := if 2 * r < b then q else if b < 2 * r then q + 1 else if q % 2 = 0 then q else q + 1
  let ds := Nat.toDigits 10 m
  let ds := if dp + 1 ≤ ds.length then ds else List.replicate (dp + 1 - ds.length) '0' ++ ds
  (if d.num < 0 then ['-'] else [])
    ++ (if dp = 0 then ds else ds.take (ds.length - dp) ++ '.' :: ds.drop (ds.length - dp))

/-- Stable descending insertion by score: the new element goes after every
already-placed element of greater or equal score and before the first one
of strictly smaller score.  This is the unique stable descending order, the
one produced by Python's `list.sort(key=get_priority, reverse=True)`. -/
def insertDesc (e : Occ) : List Occ → List Occ
  | [] => [e]
  | x :: xs => if get_priority x < get_priority e then e :: x :: xs else x :: insertDesc e xs

/-- Stable sort by score descending, modelling
`filtered_values.sort(key=lambda x: get_priority(x), reverse=True)`. -/
def sortByPriorityDesc (l : List Occ) : List Occ :=
  l.foldl (fun acc e => insertDesc e acc) []

/-- Insertion into the row-text grouping dictionary: append to the group of
an existing key, or append a new key at the end (Python dict insertion
order). -/
def insertGroup (acc : List (List Char × List Occ)) (e : Occ) : List (List Char × List Occ) :=
  match acc with
  | [] => [(e.row_text, [e])]
  | (k, g) :: rest =>
    if k == e.row_text then (k, g ++ [e]) :: rest else (k, g) :: insertGroup rest e

/-- `grouped_values`: group the sorted occurrence list by exact row text in
first-seen order. -/
def groupByRowText (l : List Occ) : List (List Char × List Occ) :=
  l.foldl insertGroup []

/-- Embedding of `select_final_eps`: drop shares-outstanding rows, sort by
score descending (Python's stable list sort with `reverse=True`), group by
row text, take the first group; return its value when all its values are
identical, else the formatted sum of its values, falling back to the first
raw value when summation fails. -/
def select_final_eps (eps_values : List Occ) : Option (List Char) :=
  if eps_values.isEmpty then none
  else
    let filtered := eps_values.filter (fun e => !(searchSharesOut (pyLower e.row_text)))
    if filtered.isEmpty then none
    else
      let sorted := sortByPriorityDesc filtered
      match groupByRowText sorted with
      | [] => none
      | (_, top) :: _ =>
        match top with
        | [] => none
        | t0 :: _ =>
          if (top.map (fun e : Occ => e.value)).dedup.length = 1 then some t0.value
          else
            match sumFloats (top.map (fun e : Occ => e.value)) with
            | some total => some (formatFixed total (decimalPlaces t0.value))
            | none => some t0.value

/-- The Final Resolver as the specification describes it (§4.6, claim C9):
after the stable descending sort, the top group consists of the occurrences
sharing the best occurrence's row text, in sorted order; if every value in
the top group equals the first one, that value is returned unchanged,
otherwise the values are summed and formatted with the first entry's
decimal-place count, the raw first value being the fallback when some value
does not parse. -/
def resolveSpec (occs : List Occ) : Option (List Char) :=
  let remaining := occs.filter (fun e => !(searchSharesOut (pyLower e.row_text)))
  match remaining with
  | [] => none
  | _ :: _ =>
    match sortByPriorityDesc remaining with
    | [] => none
    | s0 :: srest =>
      let top := (s0 :: srest).filter (fun e : Occ => e.row_text == s0.row_text)
      if ∀ e ∈ top, e.value = s0.value then some s0.value
      else
        match sumFloats (top.map (fun e : Occ => e.value)) with
        | some total => some (formatFixed total (decimalPlaces s0.value))
        | none => some s0.value

theorem insertGroup_fst {acc : List (List Char × List Occ)} {e : Occ}
    {p : List Char × List Occ} (hp : p ∈ insertGroup acc e) :
    p.1 = e.row_text ∨ ∃ q ∈ acc, p.1 = q.1 := by
  induction acc with
  | nil =>
    simp only [insertGroup, List.mem_singleton] at hp
    subst hp
    exact Or.inl rfl
  | cons a rest ih =>
    obtain ⟨k', g⟩ := a
    by_cases hk : (k' == e.row_text) = true
    · rw [show insertGroup ((k', g) :: rest) e = (k', g ++ [e]) :: rest by
        simp only [insertGroup, if_pos hk]] at hp
      rcases List.mem_cons.mp hp with heq | hmem
      · subst heq
        exact Or.inr ⟨(k', g), List.mem_cons_self _ _, rfl⟩
      · exact Or.inr ⟨p, List.mem_cons_of_mem _ hmem, rfl⟩
    · rw [show insertGroup ((k', g) :: rest) e = (k', g) :: insertGroup rest e by
        simp only [insertGroup, if_neg hk]] at hp
      rcases List.mem_cons.mp hp with heq | hmem
      · subst heq
        exact Or.inr ⟨(k', g), List.mem_cons_self _ _, rfl⟩
      · rcases ih hmem with h | ⟨q, hq, hpq⟩
        · exact Or.inl h
        · exact Or.inr ⟨q, List.mem_cons_of_mem _ hq, hpq⟩

theorem foldl_insertGroup_head (S : List Occ) :
    ∀ (k : List Char) (g : List Occ) (t : List (List Char × List Occ)),
      (∀ p ∈ t, p.1 ≠ k) →
      ∃ t', S.foldl insertGroup ((k, g) :: t)
          = (k, g ++ S.filter (fun e : Occ => e.row_text == k)) :: t'
        ∧ (∀ p ∈ t', p.1 ≠ k) := by
  induction S with
  | nil =>
    intro k g t ht
    exact ⟨t, by simp, ht⟩
  | cons e S ih =>
    intro k g t ht
    simp only [List.foldl_cons]
    by_cases hk : (k == e.row_text) = true
    · rw [show insertGroup ((k, g) :: t) e = (k, g ++ [e]) :: t by
        simp only [insertGroup, if_pos hk]]
      obtain ⟨t', ht', hkeys⟩ := ih k (g ++ [e]) t ht
      refine ⟨t', ?_, hkeys⟩
      rw [ht']
      have hke : (e.row_text == k) = true := beq_iff_eq.mpr (beq_iff_eq.mp hk).symm
      rw [List.filter_cons, if_pos hke]
      simp [List.append_assoc]
    · rw [show insertGroup ((k, g) :: t) e = (k, g) :: insertGroup t e by
        simp only [insertGroup, if_neg hk]]
      have hkeys' : ∀ p ∈ insertGroup t e, p.1 ≠ k := by
        intro p hp
        rcases insertGroup_fst hp with h | ⟨q, hq, hpq⟩
        · rw [h]
          intro hcon
          exact hk (beq_iff_eq.mpr hcon.symm)
        · rw [hpq]
          exact ht q hq
      obtain ⟨t', ht', hkeys⟩ := ih k g (insertGroup t e) hkeys'
      refine ⟨t', ?_, hkeys⟩
      rw [ht']
      have hke : (e.row_text == k) = false := by
        cases hcb : e.row_text == k
        · rfl
        · exact absurd (beq_iff_eq.mpr (beq_iff_eq.mp hcb).symm) (fun hc => by rw [hc] at hk; exact hk rfl)
      rw [List.filter_cons, if_neg (by simp [hke])]

theorem groupByRowText_head (s0 : Occ) (srest : List Occ) :
    ∃ t', groupByRowText (s0 :: srest)
      = (s0.row_text, (s0 :: srest).filter (fun e : Occ => e.row_text == s0.row_text)) :: t' := by
  unfold groupByRowText
  simp only [List.foldl_cons]
  rw [show insertGroup [] s0 = [(s0.row_text, [s0])] from rfl]
  obtain ⟨t', ht', _⟩ := foldl_insertGroup_head srest s0.row_text [s0] [] (by simp)
  refine ⟨t', ?_⟩
  rw [ht']
  have hself : (s0.row_text == s0.row_text) = true := beq_iff_eq.mpr rfl
  rw [List.filter_cons, if_pos hself]
  rfl

theorem dedup_length_one_iff {α : Type} [DecidableEq α] (x : α) (xs : List α) :
    ((x :: xs).dedup.length = 1) ↔ ∀ y ∈ xs, y = x := by
  constructor
  · intro h y hy
    obtain ⟨a, ha⟩ := List.length_eq_one.mp h
    have hx : x ∈ (x :: xs).dedup := List.mem_dedup.mpr (List.mem_cons_self x xs)
    have hyd : y ∈ (x :: xs).dedup := List.mem_dedup.mpr (List.mem_cons_of_mem _ hy)
    rw [ha] at hx hyd
    rw [List.mem_singleton.mp hyd, List.mem_singleton.mp hx]
  · intro h
    induction xs with
    | nil => simp
    | cons y ys ih =>
      have hy : y = x := h y (List.mem_cons_self _ _)
      subst hy
      rw [List.dedup_cons_of_mem (List.mem_cons_self y ys)]
      exact ih (fun z hz => h z (List.mem_cons_of_mem _ hz))

/-- Claim C9: `select_final_eps` computes exactly the resolution the
specification describes: stable descending sort, top group = the
occurrences sharing the best occurrence's row text, identical values
returned unchanged, differing values summed and formatted with the first
entry's decimal places, raw first value on parse failure. -/
theorem select_final_eps_eq_spec (occs : List Occ) :
    select_final_eps occs = resolveSpec occs := by
  simp only [select_final_eps, resolveSpec]
  by_cases hocc : occs.isEmpty = true
  · rw [List.isEmpty_iff.mp hocc]
    rfl
  · rw [Bool.eq_false_iff.mpr hocc]
    simp only [Bool.false_eq_true, if_false]
    cases hFc : occs.filter (fun e => !(searchSharesOut (pyLower e.row_text))) with
    | nil => rfl
    | cons f0 fs =>
      simp only [List.isEmpty_cons, Bool.false_eq_true, if_false]
      cases hS : sortByPriorityDesc (f0 :: fs) with
      | nil => rfl
      | cons s0 srest =>
        obtain ⟨t', hG⟩ := groupByRowText_head s0 srest
        rw [hG]
        have hself : (s0.row_text == s0.row_text) = true := beq_iff_eq.mpr rfl
        rw [List.filter_cons, if_pos hself]
        show (if (List.map (fun e : Occ => e.value)
                  (s0 :: List.filter (fun e : Occ => e.row_text == s0.row_text) srest)).dedup.length
                = 1
              then some s0.value
              else
                match sumFloats (List.map (fun e : Occ => e.value)
                    (s0 :: List.filter (fun e : Occ => e.row_text == s0.row_text) srest)) with
                | some total => some (formatFixed total (decimalPlaces s0.value))
                | none => some s0.value)
            = (if ∀ e ∈ List.filter (fun e : Occ => e.row_text == s0.row_text) (s0 :: srest),
                  e.value = s0.value
               then some s0.value
               else
                 match sumFloats (List.map (fun e : Occ => e.value)
                     (List.filter (fun e : Occ => e.row_text == s0.row_text) (s0 :: srest))) with
                 | some total => some (formatFixed total (decimalPlaces s0.value))
                 | none => some s0.value)
        rw [List.filter_cons, if_pos hself]
        have hcond :
            ((List.map (fun e : Occ => e.value)
                (s0 :: List.filter (fun e : Occ => e.row_text == s0.row_text) srest)).dedup.length
              = 1)
            ↔ (∀ e ∈ s0 :: List.filter (fun e : Occ => e.row_text == s0.row_text) srest,
                e.value = s0.value) := by
          rw [List.map_cons, dedup_length_one_iff, List.forall_mem_cons, List.forall_mem_map]
          simp
        exact if_congr hcond rfl rfl
